import Mathlib

/-!
Verification development for the OpenAPI MCP server (src/src/index.ts).

The development shallowly embeds the two core components of the program:
the spec compiler of `parseOpenAPISpec` (tool identifier and tool name
derivation, input schema construction) and the invocation dispatcher of
`initializeHandlers` (resolution by identifier or name, method and path
reconstruction, URL construction, argument shaping).

Strings are modelled through their character lists (`String.data`).
JavaScript string primitives used by the source (`toUpperCase`,
`toLowerCase`, `trim`, `split`, `join`, `replace` with the concrete
regular expressions appearing in the source, `substring`) are embedded as
executable character-list functions restricted to ASCII, which covers
every character class the source manipulates.  JavaScript falsiness of
strings (empty string is falsy, used by `op.summary || ''`,
`param.description || ...`, `if (id)`, `else if (name)`) is embedded
explicitly.  The HTTP client (axios) and the WHATWG URL resolver are
external collaborators; the dispatcher therefore returns the outbound
request it would perform instead of performing it.
-/

namespace ElevenMCP

/-- Character class of the identifier sanitizer regex `[^a-zA-Z0-9-]`
in `parseOpenAPISpec`: letters, digits and the hyphen survive. -/
def isIdChar (c : Char) : Bool :=
  (65 ≤ c.toNat && c.toNat ≤ 90) || (97 ≤ c.toNat && c.toNat ≤ 122)
    || (48 ≤ c.toNat && c.toNat ≤ 57) || c == '-'

/-- Character class of the name sanitizer regex `[^a-zA-Z0-9_-]`:
letters, digits, underscore and the hyphen survive. -/
def isNameChar (c : Char) : Bool :=
  (65 ≤ c.toNat && c.toNat ≤ 90) || (97 ≤ c.toNat && c.toNat ≤ 122)
    || (48 ≤ c.toNat && c.toNat ≤ 57) || c == '_' || c == '-'

/-- Embedding of JavaScript `toUpperCase` on one ASCII character. -/
def jsUpperChar (c : Char) : Char :=
  if 97 ≤ c.toNat ∧ c.toNat ≤ 122 then Char.ofNat (c.toNat - 32) else c

/-- Embedding of JavaScript `toLowerCase` on one ASCII character. -/
def jsLowerChar (c : Char) : Char :=
  if 65 ≤ c.toNat ∧ c.toNat ≤ 90 then Char.ofNat (c.toNat + 32) else c

/-- One step of `.replace(/[^a-zA-Z0-9-]/g, "-")`. -/
def sanitizeIdChar (c : Char) : Char :=
  if isIdChar c then c else '-'

/-- One step of `.replace(/[^a-zA-Z0-9_-]/g, '_')`. -/
def sanitizeNameChar (c : Char) : Char :=
  if isNameChar c then c else '_'

/-- The character map of the global replace of every hyphen by a slash
(the `replace` applied to the joined path parts in the dispatcher). -/
def dashToSlash (c : Char) : Char :=
  if c = '-' then '/' else c

/-- Embedding of JavaScript `String.prototype.split` with a one
character separator: `"a-b".split("-") = ["a", "b"]`, `"".split("-") =
[""]`, and a trailing separator yields a trailing empty piece. -/
def splitOnChar (sep : Char) : List Char → List (List Char)
  | [] => [[]]
  | c :: rest =>
    match splitOnChar sep rest with
    | [] => [[c]]
    | piece :: pieces =>
      if c = sep then [] :: piece :: pieces else (c :: piece) :: pieces

/-- Embedding of JavaScript `Array.prototype.join` with a one character
separator. -/
def joinWithChar (sep : Char) : List (List Char) → List Char
  | [] => []
  | [piece] => piece
  | piece :: next :: rest => piece ++ sep :: joinWithChar sep (next :: rest)

/-- Embedding of `.replace(/_{2,}/g, '_')`: every run of two or more
underscores becomes a single underscore. -/
def collapseUnders : List Char → List Char
  | [] => []
  | [c] => [c]
  | a :: b :: rest =>
    if a = '_' ∧ b = '_' then collapseUnders (b :: rest)
    else a :: collapseUnders (b :: rest)

/-- No two adjacent underscores occur in the list. -/
def noDoubleUnder : List Char → Bool
  | a :: b :: rest => !(a == '_' && b == '_') && noDoubleUnder (b :: rest)
  | _ => true

/-- The ASCII white space characters removed by JavaScript
`String.prototype.trim` (the Unicode ones never reach the dispatcher in
this ASCII embedding). -/
def jsWhitespace (c : Char) : Bool :=
  c == ' ' || c == '\t' || c == '\n' || c == '\r'
    || c.toNat == 11 || c.toNat == 12

/-- Drop white space from the front of a character list. -/
def trimLeftL (l : List Char) : List Char := l.dropWhile jsWhitespace

/-- Drop white space from the back of a character list. -/
def trimRightL (l : List Char) : List Char :=
  (l.reverse.dropWhile jsWhitespace).reverse

/-- Embedding of JavaScript `String.prototype.trim` on the character
list. -/
def jsTrimL (l : List Char) : List Char := trimRightL (trimLeftL l)

/-- Embedding of JavaScript `String.prototype.trim`. -/
def jsTrim (s : String) : String := ⟨jsTrimL s.data⟩

/-- Embedding of JavaScript `toUpperCase` (ASCII). -/
def jsUpper (s : String) : String := ⟨s.data.map jsUpperChar⟩

/-- Embedding of JavaScript `toLowerCase` (ASCII). -/
def jsLower (s : String) : String := ⟨s.data.map jsLowerChar⟩

/-- Embedding of JavaScript `s || d` for an optional string `s`: the
default is taken when the string is absent or empty (falsy). -/
def jsOr (s? : Option String) (d : String) : String :=
  match s? with
  | some s => if s = "" then d else s
  | none => d

/-- Embedding of `path.replace(/^\//, "")` in `parseOpenAPISpec`: at
most one leading slash is removed. -/
def stripLeadingSlash (p : String) : String :=
  if p.data.head? = some '/' then ⟨p.data.tail⟩ else p

/-- Embedding of the whole-string replace
`.replace(/[^a-zA-Z0-9-]/g, "-")`. -/
def replaceNonIdWithDash (s : String) : String := ⟨s.data.map sanitizeIdChar⟩

/-- The tool identifier derivation of `parseOpenAPISpec` (lines
122-126): `` `${method.toUpperCase()}-${cleanPath}`.replace(/[^a-zA-Z0-9-]/g, "-") ``
where `cleanPath` is the path with its leading slash stripped. -/
def toolIdOf (method path : String) : String :=
  replaceNonIdWithDash (jsUpper method ++ "-" ++ stripLeadingSlash path)

/-- The tool identifier as the specification text words it: the
uppercase HTTP method, followed by a hyphen, followed by the path with
its leading slash stripped, with every character of that concatenation
outside `[A-Za-z0-9-]` replaced by a hyphen.  Stated character by
character over the concatenated list, to be compared with `toolIdOf`. -/
def specToolId (method path : String) : String :=
  ⟨((jsUpper method).data ++ '-' :: (stripLeadingSlash path).data).map
    (fun c => if isIdChar c then c else '-')⟩

/-- The tool name derivation of `parseOpenAPISpec` (lines 129-140)
before truncation: the operation summary when truthy, else
`` `${method.toUpperCase()}_${cleanPath.split('/').join('_')}` ``;
then `.replace(/[^a-zA-Z0-9_-]/g, '_')`, then `.replace(/_{2,}/g, '_')`. -/
def nameCleaned (summary? : Option String) (method path : String) : List Char :=
  let synthesized : String :=
    jsUpper method ++ "_"
      ++ ⟨joinWithChar '_' (splitOnChar '/' (stripLeadingSlash path).data)⟩
  let base := jsOr summary? synthesized
  collapseUnders (base.data.map sanitizeNameChar)

/-- See `nameCleaned` for the sanitize and collapse steps; the final
step truncates to 64 characters when longer. -/
def toolNameOf (summary? : Option String) (method path : String) : String :=
  let cleaned := nameCleaned summary? method path
  if cleaned.length > 64 then ⟨cleaned.take 64⟩ else ⟨cleaned⟩

/-- The schema object attached to a parameter; only its `type` field is
read by the source (`paramSchema.type`). -/
structure ParamSchema where
  type : Option String
deriving DecidableEq

/-- An entry of `operation.parameters`.  The `name`, `in` (here `loc`),
`description` and `schema` fields may be absent (reference objects have
none of them); `required` is falsy when absent, embedded as a `Bool`. -/
structure Param where
  name : Option String
  loc : Option String
  schema : Option ParamSchema
  description : Option String
  required : Bool
deriving DecidableEq

/-- An OpenAPI operation object as read by `parseOpenAPISpec`. -/
structure Operation where
  summary : Option String
  description : Option String
  parameters : Option (List Param)
deriving DecidableEq

/-- A property of the generated input schema: declared type and human
readable description. -/
structure PropSchema where
  type : String
  description : String
deriving DecidableEq

/-- The generated `inputSchema` of a tool: the `type: "object"` tag, the
properties in insertion order, and the lazily initialized `required`
list (absent until the first required parameter is seen). -/
structure InputSchema where
  type : String
  properties : List (String × PropSchema)
  required : Option (List String)
deriving DecidableEq

/-- The registered tool: display name, description and input schema. -/
structure Tool where
  name : String
  description : String
  inputSchema : InputSchema
deriving DecidableEq

/-- The `tools` map of the server: insertion ordered, keyed by tool
identifier, matching iteration order of a JavaScript `Map`. -/
abbrev Registry := List (String × Tool)

/-- JavaScript object property assignment `m[k] = v` on an insertion
ordered record: an existing key keeps its position and gets the new
value, a new key is appended. -/
def setAssoc {α : Type} (m : List (String × α)) (k : String) (v : α) :
    List (String × α) :=
  if m.any (fun q => q.1 == k) then
    m.map (fun q => if q.1 == k then (k, v) else q)
  else m ++ [(k, v)]

/-- JavaScript `Map.get` / object property read on the insertion
ordered record. -/
def mapGet {α : Type} (m : List (String × α)) (k : String) : Option α :=
  (m.find? (fun q => q.1 == k)).map (fun q => q.2)

/-- The fresh input schema `{ type: "object", properties: {} }` created
for every tool in `parseOpenAPISpec`. -/
def emptyInputSchema : InputSchema := ⟨"object", [], none⟩

/-- The parameter loop of `parseOpenAPISpec` (lines 162-178).  An entry
is processed only when both its `name` and its `in` field are present
(`"name" in param && "in" in param`); a processed entry must carry a
schema object, because the source reads `paramSchema.type` from the
unchecked cast `param.schema as OpenAPIV3.SchemaObject` and a missing
schema raises a `TypeError` that aborts the compile phase, embedded here
as the error case.  The property type defaults to `"string"` when the
schema type is falsy and the description defaults to the parameter name
followed by `" parameter"`; a required parameter appends its name to the
lazily created `required` list. -/
def addOneParam (acc : InputSchema) (nm : String) (sch : ParamSchema)
    (pd : Option String) (pr : Bool) : InputSchema :=
  let prop : PropSchema :=
    ⟨jsOr sch.type "string", jsOr pd (nm ++ " parameter")⟩
  let acc1 : InputSchema :=
    { acc with properties := setAssoc acc.properties nm prop }
  if pr then
    { acc1 with required := some ((acc1.required.getD []) ++ [nm]) }
  else acc1

/-- See `addOneParam` for the body of one loop iteration. -/
def addParams : InputSchema → List Param → Except String InputSchema
  | acc, [] => .ok acc
  | acc, p :: rest =>
    match p.name, p.loc with
    | some nm, some _ =>
      match p.schema with
      | none => .error "TypeError: cannot read type of undefined schema"
      | some sch => addParams (addOneParam acc nm sch p.description p.required) rest
    | _, _ => addParams acc rest

/-- Compilation of one (path, method, operation) triple of
`parseOpenAPISpec` into its registry entry. -/
def compileOp (path method : String) (op : Operation) :
    Except String (String × Tool) := do
  let toolId := toolIdOf method path
  let nm := toolNameOf op.summary method path
  let descr :=
    jsOr op.description ("Make a " ++ jsUpper method ++ " request to " ++ path)
  let schema ← addParams emptyInputSchema (op.parameters.getD [])
  .ok (toolId, ⟨nm, descr, schema⟩)

/-- The full compile loop of `parseOpenAPISpec`: iterate the paths, skip
the literal `parameters` key and absent operations, insert every
compiled tool into the registry (a colliding identifier overwrites). -/
def compileSpec (paths : List (String × List (String × Option Operation))) :
    Except String Registry :=
  paths.foldlM
    (fun reg entry =>
      entry.2.foldlM
        (fun reg2 mop =>
          match mop.2 with
          | none => .ok reg2
          | some op =>
            if mop.1 = "parameters" then .ok reg2
            else do
              let t ← compileOp entry.1 mop.1 op
              .ok (setAssoc reg2 t.1 t.2))
        reg)
    []

/-- A JSON-like argument value as received in `request.params.arguments`.
Numbers are embedded as integers; plain nested objects are not needed by
any claim and are omitted. -/
inductive JSValue where
  | vstr (s : String)
  | vnum (n : Int)
  | vbool (b : Bool)
  | vnull
  | vundef
  | varr (xs : List JSValue)

mutual

/-- Embedding of JavaScript `String(value)` for the embedded values. -/
def jsToString : JSValue → String
  | .vstr s => s
  | .vnum n => toString n
  | .vbool b => if b then "true" else "false"
  | .vnull => "null"
  | .vundef => "undefined"
  | .varr xs => jsArrJoin xs

/-- Embedding of `array.join(",")`: elements separated by commas, null
and undefined elements rendered as the empty string. -/
def jsArrJoin : List JSValue → String
  | [] => ""
  | [x] => jsElemStr x
  | x :: y :: rest => jsElemStr x ++ "," ++ jsArrJoin (y :: rest)

/-- One element of `array.join`: null and undefined become empty. -/
def jsElemStr : JSValue → String
  | .vnull => ""
  | .vundef => ""
  | v => jsToString v

end

/-- The argument map of an invocation (a JSON object: keys are unique in
any value produced by JSON parsing). -/
abbrev Args := List (String × JSValue)

/-- One iteration of the query parameter loop of the GET branch of the
dispatcher (lines 264-272): an array value is joined with commas, null
and undefined are skipped, any other value is stringified; the result is
assigned into the `queryParams` record. -/
def queryStep (acc : List (String × String)) (kv : String × JSValue) :
    List (String × String) :=
  match kv.2 with
  | .varr xs => setAssoc acc kv.1 (jsArrJoin xs)
  | .vnull => acc
  | .vundef => acc
  | v => setAssoc acc kv.1 (jsToString v)

/-- The query parameter loop of the GET branch of the dispatcher (lines
259-274). -/
def buildQueryParams (ps : Args) : List (String × String) :=
  ps.foldl queryStep []

/-- The per argument shaping rule as the specification words it: an
array joins its elements with commas, null and undefined are omitted,
any other value is stringified.  Compared against `buildQueryParams`. -/
def shapeArg : String × JSValue → Option (String × String)
  | (k, .varr xs) => some (k, jsArrJoin xs)
  | (_, .vnull) => none
  | (_, .vundef) => none
  | (k, v) => some (k, jsToString v)

/-- The identifier value of an incoming call request.  The source runs
`typeof id === 'string' ? id.trim() : String(id)`: a string identifier
is trimmed, any other value is coerced to a string (embedded by its
already coerced text) and used untrimmed. -/
inductive JSId where
  | strId (s : String)
  | coercedId (s : String)
deriving DecidableEq

/-- JavaScript truthiness of the identifier as tested by `if (id)`: the
empty string is falsy; the non string values reaching the `String(id)`
branch are embedded as truthy. -/
def JSId.truthy : JSId → Bool
  | .strId s => !s.data.isEmpty
  | .coercedId _ => true

/-- The lookup key computed by the dispatcher from the identifier. -/
def JSId.toKey : JSId → String
  | .strId s => jsTrim s
  | .coercedId s => s

/-- The text of the identifier as interpolated into the error message
(the original, untrimmed value). -/
def JSId.display : JSId → String
  | .strId s => s
  | .coercedId s => s

/-- Resolution of the dispatcher (lines 203-216): a truthy `id` is
trimmed (when a string) and looked up directly in the registry, and a
missed lookup does not fall back to the name; otherwise a truthy `name`
selects the first registry entry in iteration order whose tool name
equals it. -/
def resolveByName (tools : Registry) (name? : Option String) :
    Option (String × Tool) :=
  match name? with
  | some n =>
    if n.data.isEmpty then none
    else tools.find? (fun q => q.2.name == n)
  | none => none

/-- See `resolveByName`; this is the `if (id) ... else if (name) ...`
block. -/
def resolveTool (tools : Registry) (id? : Option JSId)
    (name? : Option String) : Option (String × Tool) :=
  match id? with
  | some idv =>
    if idv.truthy then
      match mapGet tools idv.toKey with
      | some t => some (idv.toKey, t)
      | none => none
    else resolveByName tools name?
  | none => resolveByName tools name?

/-- The method recovered from a tool identifier:
`const [method, ...pathParts] = toolId.split("-")`. -/
def reconstructMethod (toolId : String) : String :=
  ⟨(splitOnChar '-' toolId.data).headD []⟩

/-- The path recovered from a tool identifier:
`"/" + pathParts.join("/")` with every remaining hyphen of the joined
text replaced by a slash. -/
def reconstructPath (toolId : String) : String :=
  ⟨'/' :: (joinWithChar '/' ((splitOnChar '-' toolId.data).tail)).map
    dashToSlash⟩

/-- The server configuration fields read by the dispatcher. -/
structure ServerConfig where
  apiBaseUrl : String
  headers : List (String × String)
deriving DecidableEq

/-- The outbound axios request the dispatcher constructs.  `qparams` is
the `params` field (set only on the GET branch when the arguments are an
object) and `body` is the `data` field (set on the non GET branch, its
value possibly undefined). -/
structure AxiosReq where
  method : String
  url : String
  headers : List (String × String)
  qparams : Option (List (String × String))
  body : Option (Option Args)

/-- The observable outcome of one dispatch: either the outbound request
it would hand to the HTTP collaborator or the message of the thrown
error, together with the registry listing diagnostic printed to stderr
in the not-found case (the remaining stderr prints format runtime
objects and are not modelled). -/
structure DispatchOutcome where
  result : Except String AxiosReq
  stderrLog : List String

/-- The `${id || name}` interpolation of the error message. -/
def displayIdOrName (id? : Option JSId) (name? : Option String) : String :=
  let nameDisp := match name? with
    | some n => n
    | none => "undefined"
  match id? with
  | some idv => if idv.truthy then idv.display else nameDisp
  | none => nameDisp

/-- Embedding of `array.join(", ")` on strings. -/
def joinCommaSpace : List String → String
  | [] => ""
  | [x] => x
  | x :: y :: rest => x ++ ", " ++ joinCommaSpace (y :: rest)

/-- The `Available tools` diagnostic: all registered (identifier, name)
pairs joined with commas. -/
def availableToolsLine (tools : Registry) : String :=
  "Available tools: "
    ++ joinCommaSpace (tools.map (fun q => q.1 ++ " (" ++ q.2.name ++ ")"))

/-- The base URL completion of the dispatcher (lines 234-237): the
configured base is kept when it already ends with a slash, else a slash
is appended. -/
def forceTrailingSlash (base : String) : String :=
  if base.data.getLast? = some '/' then base else base ++ "/"

/-- The call tool handler of `initializeHandlers` (lines 193-316).
Resolution, reconstruction of method and path from the identifier, base
URL completion, URL construction, and method dependent argument shaping.
The conditional `path.startsWith("/") ? path.slice(1) : path` removes at
most one leading slash and is therefore shared with `stripLeadingSlash`.
The WHATWG resolution `new URL(cleanPath, baseUrl)` is an external
platform capability; for a base ending in a slash and a relative clean
path of identifier characters it returns their concatenation, which is
how it is embedded.  Performing the HTTP call is the external
collaborator; the request is returned instead. -/
def dispatch (cfg : ServerConfig) (tools : Registry) (id? : Option JSId)
    (name? : Option String) (params? : Option Args) : DispatchOutcome :=
  match resolveTool tools id? name? with
  | none =>
    { result := .error ("Tool not found: " ++ displayIdOrName id? name?)
      stderrLog := [availableToolsLine tools] }
  | some (toolId, _tool) =>
    let method := reconstructMethod toolId
    let path := reconstructPath toolId
    let baseUrl := forceTrailingSlash cfg.apiBaseUrl
    let cleanPath := stripLeadingSlash path
    let url := baseUrl ++ cleanPath
    let mlow := jsLower method
    if mlow = "get" then
      { result := .ok
          { method := mlow, url := url, headers := cfg.headers
            qparams := params?.map buildQueryParams, body := none }
        stderrLog := [] }
    else
      { result := .ok
          { method := mlow, url := url, headers := cfg.headers
            qparams := none, body := some params? }
        stderrLog := [] }

/-- The qualifying names of a parameter list: the names of the entries
carrying both a `name` and an `in` field, in order. -/
def qualNames (ps : List Param) : List String :=
  ps.filterMap (fun q => match q.name, q.loc with
    | some nm, some _ => some nm
    | _, _ => none)

/-- Whether the first list is an initial segment of the second. -/
def hasPrefixL : List Char → List Char → Bool
  | [], _ => true
  | _ :: _, [] => false
  | a :: as, b :: bs => a == b && hasPrefixL as bs

/-- Whether the first list occurs contiguously inside the second. -/
def subOccurs (needle : List Char) : List Char → Bool
  | [] => needle.isEmpty
  | c :: rest => hasPrefixL needle (c :: rest) || subOccurs needle rest

/-- A base URL forced to end with exactly one trailing slash, as the
specification words the base URL completion; to be compared with the
`forceTrailingSlash` of the source. -/
def forceExactlyOneSlash (s : String) : String :=
  ⟨(s.data.reverse.dropWhile (fun c => c == '/')).reverse ++ ['/']⟩

/-- A tool and one-entry registry used by concrete witnesses. -/
def voicesTool : Tool := ⟨"List_voices", "Lists the voices", emptyInputSchema⟩

/-- A one-entry registry used by concrete witnesses. -/
def regOne : Registry := [("GET-voices", voicesTool)]

/-- A configuration without a trailing slash on the base URL. -/
def cfgPlain : ServerConfig := ⟨"https://api.test", []⟩

/-- A registry entry for the shaping witness. -/
def thingsTool : Tool := ⟨"List_things", "Lists the things", emptyInputSchema⟩

/-- Registry used by the shaping witness. -/
def regThings : Registry := [("GET-things", thingsTool)]

/-- Arguments exercising the array, scalar and null shaping rules. -/
def argsShaping : Args :=
  [("tags", .varr [.vstr "a", .vstr "b"]), ("q", .vstr "x"), ("n", .vnull)]

/-- A registry entry reachable from the identifier `GET-abc`. -/
def abcTool : Tool := ⟨"abc_tool", "The abc endpoint", emptyInputSchema⟩

/-- Registry used by the URL construction theorems. -/
def regAbc : Registry := [("GET-abc", abcTool)]

/-- A parameter entry carrying a `name` field but no `in` field. -/
def orphanParam : Param := ⟨some "x", none, none, none, false⟩

/-- The voices path parameter of the specification example. -/
def voiceParam : Param :=
  ⟨some "voice_id", some "path", some ⟨some "string"⟩, none, true⟩

/-- The input schema compiled from the single voices path parameter. -/
def voiceSchemaOut : InputSchema :=
  ⟨"object", [("voice_id", ⟨"string", "voice_id parameter"⟩)], some ["voice_id"]⟩

/-! ## Basic string facts -/

theorem data_append (a b : String) : (a ++ b).data = a.data ++ b.data := rfl

theorem data_mk (l : List Char) : (String.mk l).data = l := rfl

/-! ## C1: tool identifier derivation -/

/-- C1.  For every (path, method) pair, the derived tool identifier is
the uppercase HTTP method, a hyphen, and the path with its leading slash
stripped, with every character of that concatenation outside
`[A-Za-z0-9-]` replaced by a hyphen. -/
theorem toolId_matches_spec (method path : String) :
    toolIdOf method path = specToolId method path := by
  unfold toolIdOf specToolId replaceNonIdWithDash
  apply congrArg String.mk
  show ((jsUpper method ++ "-" ++ stripLeadingSlash path).data).map sanitizeIdChar = _
  rw [data_append, data_append]
  show ((jsUpper method).data ++ ['-'] ++ (stripLeadingSlash path).data).map
    sanitizeIdChar = _
  rw [List.append_assoc]
  rfl

/-! ## C5: tool name well-formedness -/

theorem sanitizeNameChar_valid (c : Char) : isNameChar (sanitizeNameChar c) = true := by
  unfold sanitizeNameChar
  by_cases h : isNameChar c
  · simp [h]
  · simp [h]
    decide

theorem collapseUnders_subset : ∀ l : List Char, collapseUnders l ⊆ l := by
  intro l
  induction l using collapseUnders.induct with
  | case1 => simp [collapseUnders]
  | case2 c => simp [collapseUnders]
  | case3 a b rest h ih =>
    rw [collapseUnders, if_pos h]
    exact ih.trans (List.subset_cons_self a (b :: rest))
  | case4 a b rest h ih =>
    rw [collapseUnders, if_neg h]
    intro x hx
    rcases List.mem_cons.mp hx with hx | hx
    · rw [hx]; exact List.mem_cons_self a (b :: rest)
    · exact List.mem_cons_of_mem a (ih hx)

theorem collapseUnders_cons_head : ∀ (rest : List Char) (b : Char),
    ∃ t, collapseUnders (b :: rest) = b :: t := by
  intro rest
  induction rest with
  | nil => exact fun b => ⟨[], rfl⟩
  | cons c r ih =>
    intro b
    by_cases h : b = '_' ∧ c = '_'
    · rw [collapseUnders, if_pos h]
      obtain ⟨t, ht⟩ := ih c
      exact ⟨t, by rw [ht, h.1, h.2]⟩
    · rw [collapseUnders, if_neg h]
      exact ⟨collapseUnders (c :: r), rfl⟩

theorem noDoubleUnder_short : ∀ l : List Char, l.length ≤ 1 → noDoubleUnder l = true := by
  intro l h
  match l with
  | [] => rfl
  | [c] => rfl
  | a :: b :: rest => simp at h

theorem noDoubleUnder_collapseUnders : ∀ l : List Char,
    noDoubleUnder (collapseUnders l) = true := by
  intro l
  induction l using collapseUnders.induct with
  | case1 => rfl
  | case2 c => rfl
  | case3 a b rest h ih => rw [collapseUnders, if_pos h]; exact ih
  | case4 a b rest h ih =>
    rw [collapseUnders, if_neg h]
    obtain ⟨t, ht⟩ := collapseUnders_cons_head rest b
    rw [ht]
    rw [ht] at ih
    show (!(a == '_' && b == '_') && noDoubleUnder (b :: t)) = true
    have hne : (a == '_' && b == '_') = false := by
      by_cases ha : a = '_'
      · by_cases hb : b = '_'
        · exact absurd ⟨ha, hb⟩ h
        · simp [hb]
      · simp [ha]
    rw [hne, ih]
    rfl

theorem noDoubleUnder_take (l : List Char) : ∀ (n : Nat),
    noDoubleUnder l = true → noDoubleUnder (l.take n) = true := by
  induction l with
  | nil =>
    intro n h
    rw [List.take_nil]
    rfl
  | cons a l2 ih =>
    intro n h
    cases n with
    | zero => rfl
    | succ m =>
      show noDoubleUnder (a :: l2.take m) = true
      cases l2 with
      | nil =>
        rw [List.take_nil]
        rfl
      | cons b rest =>
        cases m with
        | zero => rfl
        | succ k =>
          show noDoubleUnder (a :: b :: rest.take k) = true
          rw [noDoubleUnder] at h ⊢
          simp only [Bool.and_eq_true] at h ⊢
          exact ⟨h.1, ih (k + 1) h.2⟩

/-- C5.  For every input summary and synthesized method plus path
source, the derived tool name has at most 64 characters, contains only
characters of `[A-Za-z0-9_-]`, and has no two adjacent underscores. -/
theorem toolName_wellformed (summary? : Option String) (method path : String) :
    (toolNameOf summary? method path).data.length ≤ 64
    ∧ (∀ c ∈ (toolNameOf summary? method path).data, isNameChar c = true)
    ∧ noDoubleUnder (toolNameOf summary? method path).data = true := by
  have hvalid : ∀ c ∈ nameCleaned summary? method path, isNameChar c = true := by
    intro c hc
    unfold nameCleaned at hc
    have hc2 := collapseUnders_subset _ hc
    obtain ⟨x, hx1, hx2⟩ := List.mem_map.mp hc2
    rw [← hx2]
    exact sanitizeNameChar_valid x
  have hnd : noDoubleUnder (nameCleaned summary? method path) = true :=
    noDoubleUnder_collapseUnders _
  unfold toolNameOf
  by_cases hlen : (nameCleaned summary? method path).length > 64
  · rw [if_pos hlen]
    simp only [data_mk]
    refine ⟨List.length_take_le 64 _, ?_, ?_⟩
    · intro c hc
      exact hvalid c (List.take_subset 64 _ hc)
    · exact noDoubleUnder_take _ 64 hnd
  · rw [if_neg hlen]
    simp only [data_mk]
    exact ⟨by omega, hvalid, hnd⟩

/-! ## C4: identifier round trip -/

theorem splitOnChar_ne_nil (sep : Char) (l : List Char) : splitOnChar sep l ≠ [] := by
  cases l with
  | nil => simp [splitOnChar]
  | cons c rest =>
    rw [splitOnChar]
    match splitOnChar sep rest with
    | [] => simp
    | piece :: pieces =>
      by_cases h : c = sep
      · simp [h]
      · simp [h]

theorem splitOnChar_sep_append (sep : Char) :
    ∀ (A R : List Char), sep ∉ A →
      splitOnChar sep (A ++ sep :: R) = A :: splitOnChar sep R := by
  intro A
  induction A with
  | nil =>
    intro R _
    show splitOnChar sep (sep :: R) = [] :: splitOnChar sep R
    rw [splitOnChar]
    match h : splitOnChar sep R with
    | [] => exact absurd h (splitOnChar_ne_nil sep R)
    | piece :: pieces => simp
  | cons a A2 ih =>
    intro R hA
    have ha : a ≠ sep := fun h => hA (by rw [h]; exact List.mem_cons_self sep A2)
    have hA2 : sep ∉ A2 := fun h => hA (List.mem_cons_of_mem a h)
    show splitOnChar sep (a :: (A2 ++ sep :: R)) = (a :: A2) :: splitOnChar sep R
    rw [splitOnChar, ih R hA2]
    simp [ha]

theorem joinWithChar_cons_cons (sep c : Char) (s : List Char)
    (ss : List (List Char)) :
    joinWithChar sep ((c :: s) :: ss) = c :: joinWithChar sep (s :: ss) := by
  cases ss with
  | nil => rfl
  | cons y ys => rfl

/-- Joining a split with the replacement separator equals replacing each
separator occurrence in the original list. -/
theorem joinWithChar_splitOnChar (a b : Char) :
    ∀ l : List Char, joinWithChar b (splitOnChar a l)
      = l.map (fun c => if c = a then b else c) := by
  intro l
  induction l with
  | nil => rfl
  | cons c rest ih =>
    match hs : splitOnChar a rest with
    | [] => exact absurd hs (splitOnChar_ne_nil a rest)
    | piece :: pieces =>
      rw [splitOnChar, hs]
      show joinWithChar b
        (if c = a then [] :: piece :: pieces else (c :: piece) :: pieces)
        = (c :: rest).map fun x => if x = a then b else x
      by_cases hc : c = a
      · rw [if_pos hc]
        show [] ++ b :: joinWithChar b (piece :: pieces) = _
        rw [List.nil_append, ← hs, ih]
        simp [hc]
      · rw [if_neg hc]
        rw [joinWithChar_cons_cons, ← hs, ih]
        simp [hc]

theorem exists_first_sep (sep : Char) :
    ∀ l : List Char, sep ∈ l → ∃ A R, l = A ++ sep :: R ∧ sep ∉ A := by
  intro l
  induction l with
  | nil => intro h; simp at h
  | cons c rest ih =>
    intro h
    by_cases hc : c = sep
    · exact ⟨[], rest, by rw [hc]; rfl, by simp⟩
    · have hrest : sep ∈ rest := by
        rcases List.mem_cons.mp h with h1 | h1
        · exact absurd h1.symm hc
        · exact h1
      obtain ⟨A, R, hl, hA⟩ := ih hrest
      refine ⟨c :: A, R, by rw [hl]; rfl, ?_⟩
      intro hmem
      rcases List.mem_cons.mp hmem with h1 | h1
      · exact hc h1.symm
      · exact hA h1

theorem charOfNat_toNat_small : ∀ k, k < 123 → 64 ≤ k → (Char.ofNat k).toNat = k := by
  decide

theorem jsUpperChar_not_lower (c : Char) :
    ¬(97 ≤ (jsUpperChar c).toNat ∧ (jsUpperChar c).toNat ≤ 122) := by
  unfold jsUpperChar
  by_cases h : 97 ≤ c.toNat ∧ c.toNat ≤ 122
  · rw [if_pos h]
    have := charOfNat_toNat_small (c.toNat - 32) (by omega) (by omega)
    omega
  · rw [if_neg h]
    exact h

theorem jsUpperChar_fix (c : Char)
    (h : ¬(97 ≤ c.toNat ∧ c.toNat ≤ 122)) : jsUpperChar c = c := by
  unfold jsUpperChar
  exact if_neg h

theorem isIdChar_sanitizeIdChar (c : Char) : isIdChar (sanitizeIdChar c) = true := by
  unfold sanitizeIdChar
  by_cases h : isIdChar c
  · simp [h]
  · simp [h]
    decide

theorem sanitizeIdChar_of_idChar (c : Char) (h : isIdChar c = true) :
    sanitizeIdChar c = c := by
  unfold sanitizeIdChar
  rw [if_pos h]

theorem sanitizeIdChar_ne_dash (x : Char) (h : sanitizeIdChar x ≠ '-') :
    sanitizeIdChar x = x ∧ isIdChar x = true := by
  unfold sanitizeIdChar at h ⊢
  by_cases hx : isIdChar x
  · rw [if_pos hx]
    exact ⟨rfl, hx⟩
  · rw [if_neg hx] at h
    exact absurd rfl h

theorem dashToSlash_idem (c : Char) :
    dashToSlash (dashToSlash c) = dashToSlash c := by
  unfold dashToSlash
  by_cases h : c = '-'
  · simp [h]
  · simp [h]

theorem sanitizeIdChar_dashToSlash (c : Char) (h : isIdChar c = true) :
    sanitizeIdChar (dashToSlash c) = c := by
  unfold dashToSlash
  by_cases hc : c = '-'
  · rw [if_pos hc, hc]
    decide
  · rw [if_neg hc]
    exact sanitizeIdChar_of_idChar c h

/-- Every character surviving in front of the first hyphen of a derived
identifier is a fixed point of upper casing and sanitizing. -/
theorem methodChar_fix (c : Char) (d : Char)
    (hc : c = sanitizeIdChar (jsUpperChar d)) (hne : c ≠ '-') :
    isIdChar c = true ∧ jsUpperChar c = c := by
  obtain ⟨hfix, hid⟩ := sanitizeIdChar_ne_dash (jsUpperChar d) (by rw [← hc]; exact hne)
  have hcu : c = jsUpperChar d := by rw [hc, hfix]
  have hlow : ¬(97 ≤ c.toNat ∧ c.toNat ≤ 122) := by
    rw [hcu]; exact jsUpperChar_not_lower d
  refine ⟨by rw [hcu]; exact hid, jsUpperChar_fix c hlow⟩

/-- Reconstructing method and path from a sanitized identifier of the
form `A ++ "-" ++ R` (no hyphen in `A`, upper case fixed points in `A`,
identifier characters in `R`) and deriving again returns the same
identifier. -/
theorem rederive_core (A R : List Char)
    (hA : '-' ∉ A)
    (hAfix : ∀ c ∈ A, isIdChar c = true ∧ jsUpperChar c = c)
    (hR : ∀ c ∈ R, isIdChar c = true) :
    toolIdOf (reconstructMethod ⟨A ++ '-' :: R⟩)
      (reconstructPath ⟨A ++ '-' :: R⟩) = ⟨A ++ '-' :: R⟩ := by
  have hsplit : splitOnChar '-' (A ++ '-' :: R) = A :: splitOnChar '-' R :=
    splitOnChar_sep_append '-' A R hA
  have hmethod : reconstructMethod ⟨A ++ '-' :: R⟩ = ⟨A⟩ := by
    unfold reconstructMethod
    rw [data_mk, hsplit]
    rfl
  have hjoin : joinWithChar '/' (splitOnChar '-' R) = R.map dashToSlash := by
    rw [joinWithChar_splitOnChar '-' '/' R]
    rfl
  have hpath : reconstructPath ⟨A ++ '-' :: R⟩ = ⟨'/' :: R.map dashToSlash⟩ := by
    unfold reconstructPath
    rw [data_mk, hsplit]
    show (⟨'/' :: (joinWithChar '/' (splitOnChar '-' R)).map dashToSlash⟩ : String) = _
    rw [hjoin, List.map_map]
    have : R.map (dashToSlash ∘ dashToSlash) = R.map dashToSlash :=
      List.map_congr_left (fun c _ => dashToSlash_idem c)
    rw [this]
  rw [hmethod, hpath]
  unfold toolIdOf replaceNonIdWithDash
  apply congrArg String.mk
  rw [data_append, data_append]
  have hupper : (jsUpper ⟨A⟩).data = A := by
    unfold jsUpper
    rw [data_mk, data_mk]
    exact (List.map_congr_left (fun c hc => (hAfix c hc).2)).trans (List.map_id A)
  have hstrip : (stripLeadingSlash ⟨'/' :: R.map dashToSlash⟩).data
      = R.map dashToSlash := by
    unfold stripLeadingSlash
    rw [data_mk]
    simp
  rw [hupper, hstrip]
  show (A ++ ['-'] ++ R.map dashToSlash).map sanitizeIdChar = A ++ '-' :: R
  rw [List.map_append, List.map_append, List.map_map]
  have h1 : A.map sanitizeIdChar = A :=
    (List.map_congr_left (fun c hc => sanitizeIdChar_of_idChar c (hAfix c hc).1)).trans
      (List.map_id A)
  have h2 : R.map (sanitizeIdChar ∘ dashToSlash) = R :=
    (List.map_congr_left (fun c hc => sanitizeIdChar_dashToSlash c (hR c hc))).trans
      (List.map_id R)
  rw [h1, h2]
  have hmap : List.map sanitizeIdChar ['-'] = ['-'] := by decide
  rw [hmap, List.append_assoc]
  rfl

/-- The character list of a derived tool identifier decomposes into the
sanitized upper cased method, the separator, and the sanitized stripped
path. -/
theorem toolIdOf_data (method path : String) :
    (toolIdOf method path).data
      = (method.data.map jsUpperChar).map sanitizeIdChar
        ++ '-' :: ((stripLeadingSlash path).data.map sanitizeIdChar) := by
  unfold toolIdOf replaceNonIdWithDash
  rw [data_mk, data_append, data_append]
  show ((method.data.map jsUpperChar) ++ ['-'] ++ (stripLeadingSlash path).data).map
    sanitizeIdChar = _
  rw [List.map_append, List.map_append]
  simp [sanitizeIdChar, isIdChar]

/-- C4.  For every identifier derived from a method and a path without
a literal hyphen, reconstructing the method and path from the identifier
and deriving the identifier again from that reconstruction yields the
original identifier.  (The proof does not even need the hyphen-free
hypothesis: the round trip holds for every derived identifier.) -/
theorem toolId_roundtrip (method path : String) (hp : '-' ∉ path.data) :
    toolIdOf (reconstructMethod (toolIdOf method path))
      (reconstructPath (toolIdOf method path)) = toolIdOf method path := by
  have hTdata := toolIdOf_data method path
  set U := (method.data.map jsUpperChar).map sanitizeIdChar with hU
  set P := (stripLeadingSlash path).data.map sanitizeIdChar with hP
  have hmkT : toolIdOf method path = ⟨U ++ '-' :: P⟩ := by
    cases hT : toolIdOf method path
    rw [hT] at hTdata
    rw [data_mk] at hTdata
    rw [hTdata]
  have hUfix : ∀ c ∈ U, c ≠ '-' → isIdChar c = true ∧ jsUpperChar c = c := by
    intro c hc hne
    rw [hU] at hc
    obtain ⟨x, hx1, hx2⟩ := List.mem_map.mp hc
    obtain ⟨d, hd1, hd2⟩ := List.mem_map.mp hx1
    exact methodChar_fix c d (by rw [hd2, hx2]) hne
  have hPid : ∀ c ∈ P, isIdChar c = true := by
    intro c hc
    rw [hP] at hc
    obtain ⟨x, hx1, hx2⟩ := List.mem_map.mp hc
    rw [← hx2]
    exact isIdChar_sanitizeIdChar x
  have hUid : ∀ c ∈ U, isIdChar c = true := by
    intro c hc
    rw [hU] at hc
    obtain ⟨x, hx1, hx2⟩ := List.mem_map.mp hc
    rw [← hx2]
    exact isIdChar_sanitizeIdChar x
  rw [hmkT]
  by_cases hdash : '-' ∈ U
  · obtain ⟨A, R0, hUeq, hAnd⟩ := exists_first_sep '-' U hdash
    have hshape : U ++ '-' :: P = A ++ '-' :: (R0 ++ '-' :: P) := by
      rw [hUeq]
      simp
    rw [hshape]
    apply rederive_core
    · exact hAnd
    · intro c hc
      have hcU : c ∈ U := by
        rw [hUeq]
        exact List.mem_append_left _ hc
      exact hUfix c hcU (fun h => hAnd (h ▸ hc))
    · intro c hc
      rcases List.mem_append.mp hc with h1 | h1
      · exact hUid c (by rw [hUeq]; exact List.mem_append_right _ (List.mem_cons_of_mem '-' h1))
      · rcases List.mem_cons.mp h1 with h2 | h2
        · rw [h2]; decide
        · exact hPid c h2
  · apply rederive_core
    · exact hdash
    · intro c hc
      exact hUfix c hc (fun h => hdash (h ▸ hc))
    · exact hPid

/-- Witness for the round trip at the voices endpoint of the
specification example. -/
theorem toolId_roundtrip_witness :
    toolIdOf (reconstructMethod (toolIdOf "get" "/voices/{voice_id}"))
      (reconstructPath (toolIdOf "get" "/voices/{voice_id}"))
      = toolIdOf "get" "/voices/{voice_id}" :=
  toolId_roundtrip "get" "/voices/{voice_id}" (by decide)

/-! ## Record assignment lemmas -/

theorem mapGet_cons {α : Type} (q : String × α) (rest : List (String × α))
    (k : String) :
    mapGet (q :: rest) k = if q.1 == k then some q.2 else mapGet rest k := by
  unfold mapGet
  rw [List.find?_cons]
  cases hq : (q.1 == k)
  · simp [hq]
  · simp [hq]

theorem setAssoc_cons {α : Type} (q : String × α) (rest : List (String × α))
    (k : String) (v : α) :
    setAssoc (q :: rest) k v =
      if q.1 == k then
        (k, v) :: rest.map (fun r => if r.1 == k then (k, v) else r)
      else q :: setAssoc rest k v := by
  unfold setAssoc
  by_cases hq : (q.1 == k) = true
  · have hany : ((q :: rest).any fun r => r.1 == k) = true := by
      simp [List.any_cons, hq]
    rw [hany, if_pos rfl, if_pos hq]
    simp only [List.map_cons]
    rw [if_pos hq]
  · have hq2 : (q.1 == k) = false := Bool.eq_false_iff.mpr hq
    rw [if_neg hq]
    by_cases hrest : (rest.any fun r => r.1 == k) = true
    · have hany : ((q :: rest).any fun r => r.1 == k) = true := by
        simp [List.any_cons, hrest]
      rw [hany, if_pos rfl, hrest, if_pos rfl]
      simp only [List.map_cons]
      rw [if_neg hq]
    · have hrest2 : (rest.any fun r => r.1 == k) = false :=
        Bool.eq_false_iff.mpr hrest
      have hany : ((q :: rest).any fun r => r.1 == k) = false := by
        simp [List.any_cons, hq2, hrest2]
      rw [hany, hrest2]
      simp

theorem mapGet_overwrite_ne {α : Type} (rest : List (String × α))
    (k k2 : String) (v : α) (hne : k2 ≠ k) :
    mapGet (rest.map (fun r => if r.1 == k then (k, v) else r)) k2
      = mapGet rest k2 := by
  have h1 : (k == k2) = false := beq_eq_false_iff_ne.mpr (fun h => hne h.symm)
  induction rest with
  | nil => rfl
  | cons q rest2 ih =>
    simp only [List.map_cons]
    by_cases hq : (q.1 == k) = true
    · rw [if_pos hq, mapGet_cons, mapGet_cons]
      have hqk : q.1 = k := beq_iff_eq.mp hq
      have h2 : (q.1 == k2) = false := by
        rw [hqk]
        exact h1
      rw [if_neg (by simp [h1]), if_neg (by simp [h2])]
      exact ih
    · rw [if_neg hq, mapGet_cons, mapGet_cons]
      by_cases hq2 : (q.1 == k2) = true
      · rw [if_pos hq2, if_pos hq2]
      · rw [if_neg hq2, if_neg hq2]
        exact ih

theorem mapGet_setAssoc_self {α : Type} (m : List (String × α)) (k : String)
    (v : α) : mapGet (setAssoc m k v) k = some v := by
  induction m with
  | nil =>
    show mapGet [(k, v)] k = some v
    rw [mapGet_cons]
    simp
  | cons q rest ih =>
    rw [setAssoc_cons]
    by_cases hq : (q.1 == k) = true
    · rw [if_pos hq, mapGet_cons]
      simp
    · rw [if_neg hq, mapGet_cons, if_neg hq]
      exact ih

theorem mapGet_setAssoc_ne {α : Type} (m : List (String × α)) (k k2 : String)
    (v : α) (hne : k2 ≠ k) : mapGet (setAssoc m k v) k2 = mapGet m k2 := by
  have h1 : (k == k2) = false := beq_eq_false_iff_ne.mpr (fun h => hne h.symm)
  induction m with
  | nil =>
    show mapGet [(k, v)] k2 = mapGet [] k2
    rw [mapGet_cons]
    rw [if_neg (by simp [h1])]
  | cons q rest ih =>
    rw [setAssoc_cons]
    by_cases hq : (q.1 == k) = true
    · rw [if_pos hq, mapGet_cons, mapGet_cons]
      have hqk : q.1 = k := beq_iff_eq.mp hq
      have h2 : (q.1 == k2) = false := by
        rw [hqk]
        exact h1
      rw [if_neg (by simp [h1]), if_neg (by simp [h2])]
      exact mapGet_overwrite_ne rest k k2 v hne
    · rw [if_neg hq, mapGet_cons, mapGet_cons]
      by_cases hq2 : (q.1 == k2) = true
      · rw [if_pos hq2, if_pos hq2]
      · rw [if_neg hq2, if_neg hq2]
        exact ih

/-! ## C2: argument shaping -/

theorem setAssoc_of_absent {α : Type} (m : List (String × α)) (k : String)
    (v : α) (h : (m.any fun q => q.1 == k) = false) :
    setAssoc m k v = m ++ [(k, v)] := by
  unfold setAssoc
  rw [h]
  simp

theorem queryStep_absent (acc : List (String × String)) (k : String)
    (v : JSValue) (h : (acc.any fun q => q.1 == k) = false) :
    queryStep acc (k, v) = acc ++ (shapeArg (k, v)).toList := by
  cases v with
  | vstr s =>
    show setAssoc acc k (jsToString (JSValue.vstr s)) = _
    rw [setAssoc_of_absent _ _ _ h]
    rfl
  | vnum n =>
    show setAssoc acc k (jsToString (JSValue.vnum n)) = _
    rw [setAssoc_of_absent _ _ _ h]
    rfl
  | vbool b =>
    show setAssoc acc k (jsToString (JSValue.vbool b)) = _
    rw [setAssoc_of_absent _ _ _ h]
    rfl
  | vnull =>
    show acc = acc ++ ([] : List (String × String))
    rw [List.append_nil]
  | vundef =>
    show acc = acc ++ ([] : List (String × String))
    rw [List.append_nil]
  | varr xs =>
    show setAssoc acc k (jsArrJoin xs) = _
    rw [setAssoc_of_absent _ _ _ h]
    rfl

theorem shapeArg_key (k : String) (v : JSValue) (p : String × String)
    (h : p ∈ (shapeArg (k, v)).toList) : p.1 = k := by
  cases v with
  | vstr s => simp [shapeArg] at h; rw [h]
  | vnum n => simp [shapeArg] at h; rw [h]
  | vbool b => simp [shapeArg] at h; rw [h]
  | vnull => simp [shapeArg] at h
  | vundef => simp [shapeArg] at h
  | varr xs => simp [shapeArg] at h; rw [h]

/-- The folded query construction with an accumulator whose keys avoid
every upcoming key equals the appended per-argument shaping. -/
theorem foldl_queryStep (ps : Args) :
    ∀ acc : List (String × String),
      (ps.map Prod.fst).Nodup →
      (∀ k ∈ ps.map Prod.fst, (acc.any fun q => q.1 == k) = false) →
      ps.foldl queryStep acc = acc ++ ps.filterMap shapeArg := by
  induction ps with
  | nil =>
    intro acc _ _
    simp
  | cons kv rest ih =>
    intro acc hnodup hacc
    obtain ⟨k, v⟩ := kv
    have hk : (acc.any fun q => q.1 == k) = false :=
      hacc k (by simp)
    have hkrest : k ∉ rest.map Prod.fst := by
      have := hnodup
      simp only [List.map_cons, List.nodup_cons] at this
      exact this.1
    have hstep : queryStep acc (k, v) = acc ++ (shapeArg (k, v)).toList :=
      queryStep_absent acc k v hk
    show List.foldl queryStep (queryStep acc (k, v)) rest = _
    rw [hstep]
    rw [ih (acc ++ (shapeArg (k, v)).toList)
      (by simpa using (List.nodup_cons.mp (by simpa using hnodup)).2)
      ?later]
    · rw [List.append_assoc]
      congr 1
      show (shapeArg (k, v)).toList ++ rest.filterMap shapeArg
        = ((k, v) :: rest).filterMap shapeArg
      rw [List.filterMap_cons]
      cases hs : shapeArg (k, v) with
      | none => simp
      | some p => simp
    case later =>
      intro k2 hk2
      rw [List.any_append]
      have h1 : (acc.any fun q => q.1 == k2) = false :=
        hacc k2 (by simp [hk2])
      have h2 : ((shapeArg (k, v)).toList.any fun q => q.1 == k2) = false := by
        cases hs : ((shapeArg (k, v)).toList.any fun q => q.1 == k2) with
        | false => rfl
        | true =>
          exfalso
          obtain ⟨p, hp1, hp2⟩ := List.any_eq_true.mp hs
          have hpk : p.1 = k := shapeArg_key k v p hp1
          have : k = k2 := by
            rw [← hpk]
            exact beq_iff_eq.mp hp2
          rw [this] at hkrest
          exact hkrest hk2
      rw [h1, h2]
      rfl

theorem buildQueryParams_eq (ps : Args) (hnodup : (ps.map Prod.fst).Nodup) :
    buildQueryParams ps = ps.filterMap shapeArg := by
  unfold buildQueryParams
  rw [foldl_queryStep ps [] hnodup (by intro k _; rfl)]
  simp

/-- Dispatch at a resolved descriptor: the outcome is the GET request
with shaped query parameters or the non-GET request with the verbatim
body. -/
theorem dispatch_resolved (cfg : ServerConfig) (tools : Registry)
    (id? : Option JSId) (name? : Option String) (params? : Option Args)
    (tid : String) (tool : Tool)
    (hres : resolveTool tools id? name? = some (tid, tool)) :
    dispatch cfg tools id? name? params? =
      if jsLower (reconstructMethod tid) = "get" then
        { result := .ok
            { method := jsLower (reconstructMethod tid)
              url := forceTrailingSlash cfg.apiBaseUrl
                ++ stripLeadingSlash (reconstructPath tid)
              headers := cfg.headers
              qparams := params?.map buildQueryParams
              body := none }
          stderrLog := [] }
      else
        { result := .ok
            { method := jsLower (reconstructMethod tid)
              url := forceTrailingSlash cfg.apiBaseUrl
                ++ stripLeadingSlash (reconstructPath tid)
              headers := cfg.headers
              qparams := none
              body := some params? }
          stderrLog := [] } := by
  unfold dispatch
  rw [hres]

/-- C2.  At a resolved GET dispatch every supplied argument becomes a
query parameter by the per-argument rule of `shapeArg` (arrays joined
with commas, null and undefined omitted, other values stringified); at
any other resolved method the arguments object is passed through
verbatim as the request body with no shaping or validation. -/
theorem dispatch_arg_shaping (cfg : ServerConfig) (tools : Registry)
    (id? : Option JSId) (name? : Option String) (ps : Args)
    (tid : String) (tool : Tool)
    (hres : resolveTool tools id? name? = some (tid, tool))
    (hnodup : (ps.map Prod.fst).Nodup) :
    (jsLower (reconstructMethod tid) = "get" →
      (dispatch cfg tools id? name? (some ps)).result = .ok
        { method := "get"
          url := forceTrailingSlash cfg.apiBaseUrl
            ++ stripLeadingSlash (reconstructPath tid)
          headers := cfg.headers
          qparams := some (ps.filterMap shapeArg)
          body := none })
    ∧ (jsLower (reconstructMethod tid) ≠ "get" →
      (dispatch cfg tools id? name? (some ps)).result = .ok
        { method := jsLower (reconstructMethod tid)
          url := forceTrailingSlash cfg.apiBaseUrl
            ++ stripLeadingSlash (reconstructPath tid)
          headers := cfg.headers
          qparams := none
          body := some (some ps) }) := by
  rw [dispatch_resolved cfg tools id? name? (some ps) tid tool hres]
  constructor
  · intro hg
    rw [if_pos hg]
    show Except.ok _ = _
    rw [hg]
    have hq : (some ps).map buildQueryParams = some (ps.filterMap shapeArg) := by
      show some (buildQueryParams ps) = _
      rw [buildQueryParams_eq ps hnodup]
    rw [hq]
  · intro hg
    rw [if_neg hg]

/-! ## C3: unknown identifier -/

/-- C3.  Dispatching an identifier with no registry entry (and that is
not the name of any registered tool) fails with the tool-not-found error
and produces no outbound request; the registry is an immutable input of
the pure `dispatch` function, so no state changes. -/
theorem unknown_id_not_found (cfg : ServerConfig) (tools : Registry)
    (s : String) (name? : Option String) (params? : Option Args)
    (hne : s.data ≠ [])
    (hmiss : mapGet tools (jsTrim s) = none)
    (hname : ∀ q ∈ tools, q.2.name ≠ s) :
    (dispatch cfg tools (some (.strId s)) name? params?).result
      = .error ("Tool not found: " ++ s)
    ∧ ∀ req, (dispatch cfg tools (some (.strId s)) name? params?).result
        ≠ .ok req := by
  have htruthy : (JSId.strId s).truthy = true := by
    unfold JSId.truthy
    simp [hne]
  have hres : resolveTool tools (some (.strId s)) name? = none := by
    show (if (JSId.strId s).truthy = true then
        match mapGet tools (JSId.strId s).toKey with
        | some t => some ((JSId.strId s).toKey, t)
        | none => none
      else resolveByName tools name?) = none
    rw [if_pos htruthy]
    show (match mapGet tools (jsTrim s) with
      | some t => some ((JSId.strId s).toKey, t)
      | none => none) = none
    rw [hmiss]
  have hdisp : dispatch cfg tools (some (.strId s)) name? params? =
      { result := .error
          ("Tool not found: " ++ displayIdOrName (some (.strId s)) name?)
        stderrLog := [availableToolsLine tools] } := by
    unfold dispatch
    rw [hres]
  have hdisplay : displayIdOrName (some (.strId s)) name? = s := by
    cases name? with
    | none =>
      show (if (JSId.strId s).truthy = true then (JSId.strId s).display
        else "undefined") = s
      rw [if_pos htruthy]
      rfl
    | some n =>
      show (if (JSId.strId s).truthy = true then (JSId.strId s).display
        else n) = s
      rw [if_pos htruthy]
      rfl
  rw [hdisp, hdisplay]
  exact ⟨rfl, fun req h => by simp at h⟩

theorem unknown_id_not_found_witness :
    (dispatch cfgPlain regOne
      (some (.strId "DELETE-nonexistent")) none none).result
      = .error "Tool not found: DELETE-nonexistent" :=
  (unknown_id_not_found cfgPlain regOne "DELETE-nonexistent" none none
    (by decide) (by rfl) (by decide)).1

/-! ## C7: resolution precedence -/

/-- C7.  A truthy identifier is looked up directly (after key
normalization) and any supplied name is ignored; with no identifier, a
truthy name resolves to the first registry entry in iteration order
whose tool name equals it. -/
theorem resolution_rule (tools : Registry) (idv : JSId)
    (nameA nameB : Option String) (n : String)
    (ht : idv.truthy = true) (hn : n.data ≠ []) :
    resolveTool tools (some idv) nameA
        = (mapGet tools idv.toKey).map (fun t => (idv.toKey, t))
    ∧ resolveTool tools (some idv) nameA = resolveTool tools (some idv) nameB
    ∧ resolveTool tools none (some n)
        = tools.find? (fun q => q.2.name == n) := by
  have hself : ∀ nm : Option String, resolveTool tools (some idv) nm
      = (mapGet tools idv.toKey).map (fun t => (idv.toKey, t)) := by
    intro nm
    show (if idv.truthy = true then
        match mapGet tools idv.toKey with
        | some t => some (idv.toKey, t)
        | none => none
      else resolveByName tools nm)
      = (mapGet tools idv.toKey).map (fun t => (idv.toKey, t))
    rw [if_pos ht]
    cases hm : mapGet tools idv.toKey with
    | none => rfl
    | some t => rfl
  refine ⟨hself nameA, (hself nameA).trans (hself nameB).symm, ?_⟩
  show (if n.data.isEmpty then none else tools.find? (fun q => q.2.name == n))
    = tools.find? (fun q => q.2.name == n)
  rw [if_neg (by simp [hn])]

theorem resolution_rule_witness :
    resolveTool regOne (some (.strId "GET-voices")) (some "List_voices")
      = some ("GET-voices", voicesTool)
    ∧ resolveTool regOne none (some "List_voices")
      = some ("GET-voices", voicesTool) := by
  have h := resolution_rule regOne (.strId "GET-voices")
    (some "List_voices") none "List_voices" (by decide) (by decide)
  constructor
  · rw [h.1]
    rfl
  · rw [h.2.2]
    rfl

theorem dispatch_arg_shaping_witness :
    (dispatch cfgPlain regThings (some (.strId "GET-things")) none
      (some argsShaping)).result
      = .ok
        { method := "get"
          url := forceTrailingSlash cfgPlain.apiBaseUrl
            ++ stripLeadingSlash (reconstructPath "GET-things")
          headers := cfgPlain.headers
          qparams := some (argsShaping.filterMap shapeArg)
          body := none } :=
  (dispatch_arg_shaping cfgPlain regThings (some (.strId "GET-things")) none
    argsShaping "GET-things" thingsTool (by rfl) (by decide)).1 (by rfl)

/-! ## C10: trimming of supplied identifiers -/

theorem dropWhile_append_of_all {p : Char → Bool} :
    ∀ (w l : List Char), (∀ c ∈ w, p c = true) →
      (w ++ l).dropWhile p = l.dropWhile p := by
  intro w
  induction w with
  | nil =>
    intro l _
    rfl
  | cons c w2 ih =>
    intro l hw
    show ((c :: (w2 ++ l)).dropWhile p) = l.dropWhile p
    rw [List.dropWhile_cons, if_pos (hw c (by simp))]
    exact ih l (fun x hx => hw x (List.mem_cons_of_mem c hx))

theorem dropWhile_append_of_ne_nil {p : Char → Bool} :
    ∀ (l l2 : List Char), l.dropWhile p ≠ [] →
      (l ++ l2).dropWhile p = l.dropWhile p ++ l2 := by
  intro l
  induction l with
  | nil =>
    intro l2 h
    exact absurd rfl h
  | cons c r ih =>
    intro l2 h
    by_cases hc : p c = true
    · rw [List.dropWhile_cons, if_pos hc] at h
      show ((c :: (r ++ l2)).dropWhile p) = _
      rw [List.dropWhile_cons, if_pos hc, List.dropWhile_cons, if_pos hc]
      exact ih l2 h
    · show ((c :: (r ++ l2)).dropWhile p) = _
      rw [List.dropWhile_cons, if_neg hc, List.dropWhile_cons, if_neg hc]
      rfl

theorem trimLeft_ws_append (w l : List Char)
    (h : ∀ c ∈ w, jsWhitespace c = true) : trimLeftL (w ++ l) = trimLeftL l :=
  dropWhile_append_of_all w l h

theorem trimRight_append_ws (l w : List Char)
    (h : ∀ c ∈ w, jsWhitespace c = true) : trimRightL (l ++ w) = trimRightL l := by
  unfold trimRightL
  rw [List.reverse_append]
  rw [dropWhile_append_of_all w.reverse l.reverse
    (fun c hc => h c (List.mem_reverse.mp hc))]

/-- Trimming ignores any all-whitespace fringe around a common core. -/
theorem jsTrimL_sandwich (core w1 w2 : List Char)
    (h1 : ∀ c ∈ w1, jsWhitespace c = true)
    (h2 : ∀ c ∈ w2, jsWhitespace c = true) :
    jsTrimL (w1 ++ core ++ w2) = jsTrimL core := by
  unfold jsTrimL
  have hl : trimLeftL (w1 ++ core ++ w2) = trimLeftL (core ++ w2) := by
    rw [List.append_assoc]
    exact trimLeft_ws_append w1 (core ++ w2) h1
  rw [hl]
  by_cases hcore : trimLeftL core = []
  · have hws : ∀ c ∈ core, jsWhitespace c = true :=
      List.dropWhile_eq_nil_iff.mp hcore
    have hcw : trimLeftL (core ++ w2) = [] := by
      apply List.dropWhile_eq_nil_iff.mpr
      intro x hx
      rcases List.mem_append.mp hx with h | h
      · exact hws x h
      · exact h2 x h
    rw [hcw, hcore]
  · have hcw : trimLeftL (core ++ w2) = trimLeftL core ++ w2 :=
      dropWhile_append_of_ne_nil core w2 hcore
    rw [hcw]
    exact trimRight_append_ws (trimLeftL core) w2 h2

/-- C10.  A supplied string identifier is looked up under its trimmed
key, so identifiers differing only in surrounding whitespace resolve to
the same descriptor. -/
theorem id_trim_resolution (tools : Registry) (name? : Option String)
    (core w1 w2 w3 w4 : List Char)
    (hc : core ≠ [])
    (h1 : ∀ c ∈ w1, jsWhitespace c = true)
    (h2 : ∀ c ∈ w2, jsWhitespace c = true)
    (h3 : ∀ c ∈ w3, jsWhitespace c = true)
    (h4 : ∀ c ∈ w4, jsWhitespace c = true) :
    resolveTool tools (some (.strId ⟨w1 ++ core ++ w2⟩)) name?
        = (mapGet tools ⟨jsTrimL core⟩).map
            (fun t => ((⟨jsTrimL core⟩ : String), t))
    ∧ resolveTool tools (some (.strId ⟨w1 ++ core ++ w2⟩)) name?
        = resolveTool tools (some (.strId ⟨w3 ++ core ++ w4⟩)) name? := by
  have key : ∀ (wa wb : List Char), (∀ c ∈ wa, jsWhitespace c = true) →
      (∀ c ∈ wb, jsWhitespace c = true) →
      resolveTool tools (some (.strId ⟨wa ++ core ++ wb⟩)) name?
        = (mapGet tools ⟨jsTrimL core⟩).map
            (fun t => ((⟨jsTrimL core⟩ : String), t)) := by
    intro wa wb ha hb
    have hnil : wa ++ core ++ wb ≠ [] := by
      intro h
      rcases List.append_eq_nil.mp h with ⟨ha1, ha2⟩
      exact hc (List.append_eq_nil.mp ha1).2
    have htruthy : (JSId.strId ⟨wa ++ core ++ wb⟩).truthy = true := by
      unfold JSId.truthy
      simp [data_mk, hnil]
      intro hwa hcore
      exact absurd hcore hc
    have hkey : (JSId.strId ⟨wa ++ core ++ wb⟩).toKey
        = (⟨jsTrimL core⟩ : String) := by
      show jsTrim ⟨wa ++ core ++ wb⟩ = _
      unfold jsTrim
      rw [data_mk, jsTrimL_sandwich core wa wb ha hb]
    show (if (JSId.strId ⟨wa ++ core ++ wb⟩).truthy = true then
        match mapGet tools (JSId.strId ⟨wa ++ core ++ wb⟩).toKey with
        | some t => some ((JSId.strId ⟨wa ++ core ++ wb⟩).toKey, t)
        | none => none
      else resolveByName tools name?)
      = (mapGet tools ⟨jsTrimL core⟩).map
          (fun t => ((⟨jsTrimL core⟩ : String), t))
    rw [if_pos htruthy, hkey]
    cases mapGet tools (⟨jsTrimL core⟩ : String) with
    | none => rfl
    | some t => rfl
  exact ⟨key w1 w2 h1 h2, (key w1 w2 h1 h2).trans (key w3 w4 h3 h4).symm⟩

theorem id_trim_resolution_witness :
    resolveTool regOne
      (some (.strId ⟨[' '] ++ "GET-voices".data ++ ['\t']⟩)) none
      = some ("GET-voices", voicesTool)
    ∧ resolveTool regOne
      (some (.strId ⟨[' '] ++ "GET-voices".data ++ ['\t']⟩)) none
      = resolveTool regOne
        (some (.strId ⟨[] ++ "GET-voices".data ++ []⟩)) none := by
  have h := id_trim_resolution regOne none "GET-voices".data [' '] ['\t'] [] []
    (by decide) (by decide) (by decide) (by decide) (by decide)
  refine ⟨?_, h.2⟩
  rw [h.1]
  rfl

/-! ## C6: input contract construction -/

/-- C6 counterexample.  A parameter entry carrying a `name` field (one
of the two fields) but no `in` field contributes nothing: the compiled
schema keeps no property at all, against the claim that only entries
lacking both fields are skipped. -/
theorem inputSchema_skip_cex :
    addParams emptyInputSchema [orphanParam] = .ok emptyInputSchema
    ∧ orphanParam.name.isSome = true
    ∧ emptyInputSchema.properties = [] :=
  ⟨rfl, rfl, rfl⟩

theorem addOneParam_properties (acc : InputSchema) (nm : String)
    (sch : ParamSchema) (pd : Option String) (pr : Bool) :
    (addOneParam acc nm sch pd pr).properties
      = setAssoc acc.properties nm
          ⟨jsOr sch.type "string", jsOr pd (nm ++ " parameter")⟩ := by
  unfold addOneParam
  cases pr
  · rfl
  · rfl

/-- Parameters whose qualifying names avoid `nm` leave the property
stored under `nm` unchanged. -/
theorem addParams_preserve (nm : String) :
    ∀ (rest : List Param) (acc out : InputSchema),
      addParams acc rest = .ok out → nm ∉ qualNames rest →
      mapGet out.properties nm = mapGet acc.properties nm := by
  intro rest
  induction rest with
  | nil =>
    intro acc out h _
    have h2 : Except.ok (ε := String) acc = .ok out := h
    cases h2
    rfl
  | cons p rest2 ih =>
    intro acc out h hnm
    obtain ⟨pn, pl, psch, pd, pr⟩ := p
    cases pn with
    | none =>
      have h2 : addParams acc rest2 = .ok out := h
      have hq : qualNames (⟨none, pl, psch, pd, pr⟩ :: rest2)
          = qualNames rest2 := by
        cases pl
        · rfl
        · rfl
      rw [hq] at hnm
      exact ih acc out h2 hnm
    | some n1 =>
      cases pl with
      | none =>
        have h2 : addParams acc rest2 = .ok out := h
        have hq : qualNames (⟨some n1, none, psch, pd, pr⟩ :: rest2)
            = qualNames rest2 := rfl
        rw [hq] at hnm
        exact ih acc out h2 hnm
      | some l1 =>
        cases psch with
        | none => exact Except.noConfusion h
        | some sch =>
          have h2 : addParams (addOneParam acc n1 sch pd pr) rest2
              = .ok out := h
          have hq : qualNames (⟨some n1, some l1, some sch, pd, pr⟩ :: rest2)
              = n1 :: qualNames rest2 := rfl
          rw [hq] at hnm
          have hne : nm ≠ n1 := fun hcon =>
            hnm (by rw [hcon]; exact List.mem_cons_self n1 (qualNames rest2))
          have hnm2 : nm ∉ qualNames rest2 := fun hcon =>
            hnm (List.mem_cons_of_mem n1 hcon)
          rw [ih (addOneParam acc n1 sch pd pr) out h2 hnm2]
          rw [addOneParam_properties]
          exact mapGet_setAssoc_ne acc.properties n1 nm _ hne

/-- Every qualifying parameter with a schema contributes its property to
the compiled schema, provided qualifying names are not duplicated. -/
theorem addParams_mem_props :
    ∀ (ps : List Param) (acc out : InputSchema) (p : Param) (nm loc : String)
      (sch : ParamSchema),
      addParams acc ps = .ok out → p ∈ ps → (qualNames ps).Nodup →
      p.name = some nm → p.loc = some loc → p.schema = some sch →
      mapGet out.properties nm
        = some ⟨jsOr sch.type "string",
            jsOr p.description (nm ++ " parameter")⟩ := by
  intro ps
  induction ps with
  | nil =>
    intro acc out p nm loc sch _ hmem _ _ _ _
    simp at hmem
  | cons p0 rest ih =>
    intro acc out p nm loc sch hrun hmem hnodup hn hl hs
    obtain ⟨p0n, p0l, p0s, p0d, p0r⟩ := p0
    rcases List.mem_cons.mp hmem with heq | hmem2
    · subst heq
      have hn2 : p0n = some nm := hn
      have hl2 : p0l = some loc := hl
      have hs2 : p0s = some sch := hs
      subst hn2
      subst hl2
      subst hs2
      have hrun2 : addParams (addOneParam acc nm sch p0d p0r) rest
          = .ok out := hrun
      have hq : qualNames (⟨some nm, some loc, some sch, p0d, p0r⟩ :: rest)
          = nm :: qualNames rest := rfl
      rw [hq] at hnodup
      have hnm_rest : nm ∉ qualNames rest := (List.nodup_cons.mp hnodup).1
      rw [addParams_preserve nm rest _ out hrun2 hnm_rest]
      rw [addOneParam_properties]
      exact mapGet_setAssoc_self acc.properties nm _
    · cases p0n with
      | none =>
        have hrun2 : addParams acc rest = .ok out := hrun
        have hq : qualNames (⟨none, p0l, p0s, p0d, p0r⟩ :: rest)
            = qualNames rest := by
          cases p0l
          · rfl
          · rfl
        rw [hq] at hnodup
        exact ih acc out p nm loc sch hrun2 hmem2 hnodup hn hl hs
      | some n0 =>
        cases p0l with
        | none =>
          have hrun2 : addParams acc rest = .ok out := hrun
          have hq : qualNames (⟨some n0, none, p0s, p0d, p0r⟩ :: rest)
              = qualNames rest := rfl
          rw [hq] at hnodup
          exact ih acc out p nm loc sch hrun2 hmem2 hnodup hn hl hs
        | some l0 =>
          cases p0s with
          | none => exact Except.noConfusion hrun
          | some sch0 =>
            have hrun2 : addParams (addOneParam acc n0 sch0 p0d p0r) rest
                = .ok out := hrun
            have hq : qualNames (⟨some n0, some l0, some sch0, p0d, p0r⟩ :: rest)
                = n0 :: qualNames rest := rfl
            rw [hq] at hnodup
            exact ih _ out p nm loc sch hrun2 hmem2
              (List.nodup_cons.mp hnodup).2 hn hl hs

/-- C6 amended.  The compiler skips a parameter entry unless both its
`name` and its `in` field are present; every entry carrying both fields
and a schema object contributes a property whose type defaults to
`string` when the schema type is falsy and whose description defaults to
the parameter name followed by `parameter` (an entry with both fields
but no schema object aborts compilation).  Stated for compilations from
the fresh schema with distinct qualifying names. -/
theorem inputSchema_amended (ps : List Param) (out : InputSchema) (p : Param)
    (nm loc : String) (sch : ParamSchema)
    (hrun : addParams emptyInputSchema ps = .ok out) (hmem : p ∈ ps)
    (hnodup : (qualNames ps).Nodup) (hn : p.name = some nm)
    (hl : p.loc = some loc) (hs : p.schema = some sch) :
    mapGet out.properties nm
      = some ⟨jsOr sch.type "string",
          jsOr p.description (nm ++ " parameter")⟩ :=
  addParams_mem_props ps emptyInputSchema out p nm loc sch hrun hmem hnodup
    hn hl hs

theorem inputSchema_amended_witness :
    mapGet voiceSchemaOut.properties "voice_id"
      = some ⟨"string", "voice_id parameter"⟩ :=
  inputSchema_amended [voiceParam] voiceSchemaOut voiceParam "voice_id" "path"
    ⟨some "string"⟩ (by rfl) (List.mem_cons_self voiceParam []) (by decide)
    rfl rfl rfl

/-! ## C8: URL construction -/

/-- C8 counterexample.  With the configured base `https://x//` the
dispatcher keeps both trailing slashes, so the constructed URL is not
the base forced to exactly one trailing slash followed by the stripped
path: the join point carries a duplicated slash. -/
theorem url_join_cex :
    (dispatch ⟨"https://x//", []⟩ regAbc
      (some (.strId "GET-abc")) none none).result
      = .ok { method := "get", url := "https://x//abc", headers := []
              qparams := none, body := none }
    ∧ forceExactlyOneSlash "https://x//" ++ "abc" = "https://x/abc"
    ∧ ("https://x//abc" : String) ≠ "https://x/abc" :=
  ⟨rfl, by decide, by decide⟩

/-- C8 amended.  The dispatcher appends a slash to the base URL only
when the base lacks one; when the configured base does not already end
in a slash and the stripped reconstructed path does not itself begin
with a slash, the request URL is the base, one slash, and the stripped
path, with exactly one slash at the join point. -/
theorem url_join_amended (cfg : ServerConfig) (tools : Registry)
    (id? : Option JSId) (name? : Option String) (params? : Option Args)
    (tid : String) (tool : Tool)
    (hres : resolveTool tools id? name? = some (tid, tool))
    (hbase : cfg.apiBaseUrl.data.getLast? ≠ some '/')
    (hpath : (stripLeadingSlash (reconstructPath tid)).data.head? ≠ some '/') :
    ∃ req, (dispatch cfg tools id? name? params?).result = .ok req
      ∧ req.url = cfg.apiBaseUrl ++ "/" ++ stripLeadingSlash (reconstructPath tid)
      ∧ req.url.data
          = cfg.apiBaseUrl.data
            ++ '/' :: (stripLeadingSlash (reconstructPath tid)).data
      ∧ cfg.apiBaseUrl.data.getLast? ≠ some '/'
      ∧ (stripLeadingSlash (reconstructPath tid)).data.head? ≠ some '/' := by
  have hforce : forceTrailingSlash cfg.apiBaseUrl = cfg.apiBaseUrl ++ "/" := by
    unfold forceTrailingSlash
    rw [if_neg hbase]
  have hurl1 : forceTrailingSlash cfg.apiBaseUrl
      ++ stripLeadingSlash (reconstructPath tid)
      = cfg.apiBaseUrl ++ "/" ++ stripLeadingSlash (reconstructPath tid) := by
    rw [hforce]
  have hurl2 : (forceTrailingSlash cfg.apiBaseUrl
      ++ stripLeadingSlash (reconstructPath tid)).data
      = cfg.apiBaseUrl.data
        ++ '/' :: (stripLeadingSlash (reconstructPath tid)).data := by
    rw [hforce, data_append, data_append]
    rw [List.append_assoc]
    rfl
  rw [dispatch_resolved cfg tools id? name? params? tid tool hres]
  by_cases hg : jsLower (reconstructMethod tid) = "get"
  · rw [if_pos hg]
    exact ⟨_, rfl, hurl1, hurl2, hbase, hpath⟩
  · rw [if_neg hg]
    exact ⟨_, rfl, hurl1, hurl2, hbase, hpath⟩

theorem url_join_amended_witness :
    ∃ req, (dispatch cfgPlain regAbc
        (some (.strId "GET-abc")) none none).result = .ok req
      ∧ req.url = cfgPlain.apiBaseUrl ++ "/"
          ++ stripLeadingSlash (reconstructPath "GET-abc")
      ∧ req.url.data
          = cfgPlain.apiBaseUrl.data
            ++ '/' :: (stripLeadingSlash (reconstructPath "GET-abc")).data
      ∧ cfgPlain.apiBaseUrl.data.getLast? ≠ some '/'
      ∧ (stripLeadingSlash (reconstructPath "GET-abc")).data.head?
          ≠ some '/' :=
  url_join_amended cfgPlain regAbc (some (.strId "GET-abc")) none none
    "GET-abc" abcTool (by rfl) (by decide) (by decide)

/-! ## C9: not-found payload and diagnostics -/

/-- C9 counterexample.  The error payload thrown for an unknown
identifier is only the not-found message; neither the registered
identifier nor the registered name occurs in it (the listing goes to the
stderr diagnostic instead). -/
theorem notfound_payload_cex :
    (dispatch cfgPlain regOne (some (.strId "POST-missing")) none none).result
      = .error "Tool not found: POST-missing"
    ∧ subOccurs "GET-voices".data "Tool not found: POST-missing".data = false
    ∧ subOccurs "List_voices".data "Tool not found: POST-missing".data
      = false :=
  ⟨rfl, by decide, by decide⟩

/-- C9 amended.  On a failed resolution the caller receives only the
message naming the unresolved identifier, and the full list of
registered (identifier, name) pairs is emitted on the stderr diagnostic
channel. -/
theorem notfound_payload_and_diag (cfg : ServerConfig) (tools : Registry)
    (idv : JSId) (name? : Option String) (params? : Option Args)
    (ht : idv.truthy = true)
    (hmiss : mapGet tools idv.toKey = none) :
    dispatch cfg tools (some idv) name? params? =
      { result := .error ("Tool not found: " ++ idv.display)
        stderrLog := ["Available tools: " ++ joinCommaSpace
          (tools.map (fun q => q.1 ++ " (" ++ q.2.name ++ ")"))] } := by
  have hres : resolveTool tools (some idv) name? = none := by
    show (if idv.truthy = true then
        match mapGet tools idv.toKey with
        | some t => some (idv.toKey, t)
        | none => none
      else resolveByName tools name?) = none
    rw [if_pos ht, hmiss]
  have hdisp : dispatch cfg tools (some idv) name? params? =
      { result := .error
          ("Tool not found: " ++ displayIdOrName (some idv) name?)
        stderrLog := [availableToolsLine tools] } := by
    unfold dispatch
    rw [hres]
  have hdisplay : displayIdOrName (some idv) name? = idv.display := by
    cases name? with
    | none =>
      show (if idv.truthy = true then idv.display else "undefined")
        = idv.display
      rw [if_pos ht]
    | some n =>
      show (if idv.truthy = true then idv.display else n) = idv.display
      rw [if_pos ht]
  rw [hdisp, hdisplay]
  rfl

theorem notfound_payload_and_diag_witness :
    dispatch cfgPlain regOne (some (.strId "PUT-absent")) none none =
      { result := .error "Tool not found: PUT-absent"
        stderrLog := ["Available tools: " ++ joinCommaSpace
          (regOne.map (fun q => q.1 ++ " (" ++ q.2.name ++ ")"))] } :=
  notfound_payload_and_diag cfgPlain regOne (.strId "PUT-absent") none none
    (by decide) (by rfl)

end ElevenMCP
